import Mathlib

/-!
Verification of the password-mangler rule engine
(`mangler_rule_optimizer.py`, `mangler_hashcat.py`).

The Python source is shallowly embedded: words and rule texts are `String`s
(internally `List Char`), all functions are total Lean functions mirroring
the source line by line.  Python's `str.lower`/`upper`/`islower`/`isupper`/
`swapcase` are modelled over ASCII (all inputs appearing in the claims are
ASCII); Python string comparison is code-point lexicographic, modelled by
`charsLt`.
-/

namespace Mangler

/-- Python `str.swapcase` on a single ASCII character. -/
def swapCaseChar (c : Char) : Char :=
  if c.isUpper then c.toLower else if c.isLower then c.toUpper else c

/-- `result[0].upper() + result[1:].lower()` — the `c` op of `apply_simple_rule`
(guarded by `if result:` in the source, hence the empty case is the empty word). -/
def capWord : List Char → List Char
  | [] => []
  | h :: t => h.toUpper :: t.map Char.toLower

/-- `result[0].lower() + result[1:].upper()` — the `C` op. -/
def capInvWord : List Char → List Char
  | [] => []
  | h :: t => h.toLower :: t.map Char.toUpper

/-- `result[0] + result` — the `z` op (duplicate first char), empty-guarded. -/
def dupFirst : List Char → List Char
  | [] => []
  | h :: t => h :: h :: t

/-- `result + result[-1]` — the `Z` op (duplicate last char), empty-guarded. -/
def dupLast : List Char → List Char
  | [] => []
  | h :: t => (h :: t) ++ [(h :: t).getLast (List.cons_ne_nil h t)]

/-- The single-character ops of `apply_simple_rule` (`mangler_rule_optimizer.py`
lines 66-98 and 123-131).  An op character not recognised by any branch of the
source loop leaves the word unchanged (the loop just advances). -/
def applyCharOp (c : Char) (res : List Char) : List Char :=
  if c = ':' then res
  else if c = 'l' then res.map Char.toLower
  else if c = 'u' then res.map Char.toUpper
  else if c = 'c' then capWord res
  else if c = 'C' then capInvWord res
  else if c = 't' then res.map swapCaseChar
  else if c = 'r' then res.reverse
  else if c = 'd' then res ++ res
  else if c = 'z' then dupFirst res
  else if c = 'Z' then dupLast res
  else res

/-- The scanning loop of `apply_simple_rule` (lines 62-133).  Ops `$X`, `^X`,
`sXY`, `@X` consume their operand characters exactly when enough characters
remain (the source guards, e.g. `op == '$' and i + 1 < len(rule)`); when the
guard fails the op character falls through every branch and is skipped, any
following characters still being processed as ops — which the patterns below
reproduce via the final catch-all arm. -/
def applyRuleGo : List Char → List Char → List Char
  | [], res => res
  | '$' :: x :: rest, res => applyRuleGo rest (res ++ [x])
  | '^' :: x :: rest, res => applyRuleGo rest (x :: res)
  | 's' :: x :: y :: rest, res =>
      applyRuleGo rest (res.map (fun ch => if ch = x then y else ch))
  | '@' :: x :: rest, res => applyRuleGo rest (res.filter (fun ch => ch ≠ x))
  | c :: rest, res => applyRuleGo rest (applyCharOp c res)

/-- `apply_simple_rule(word, rule)` of `mangler_rule_optimizer.py` (lines 40-135):
apply a simple Hashcat rule to a word.  Total: the source returns a plain
string for every pair of string inputs. -/
def apply_simple_rule (word rule : String) : String :=
  ⟨applyRuleGo rule.data word.data⟩

/-- Python code-point comparison of strings (`a < b` on `str`): lexicographic
on character code points. -/
def charsLt : List Char → List Char → Bool
  | [], [] => false
  | [], _ :: _ => true
  | _ :: _, [] => false
  | a :: as, b :: bs => if a < b then true else if b < a then false else charsLt as bs

/-- The sort key `lambda r: (len(r), r)` of `optimize_rules` line 239, as a
strict comparison: compare character counts first, then the text itself. -/
def keyLtB (a b : String) : Bool :=
  if a.length < b.length then true
  else if b.length < a.length then false
  else charsLt a.data b.data

/-- `sorted(rules_with_same_output, key=lambda r: (len(r), r))[0]` (line 239):
the member minimal under `keyLtB`, first occurrence winning ties (Python's
sort is stable; full key ties are identical strings anyway). -/
def bestOf : List String → String
  | [] => ""
  | r :: rest => rest.foldl (fun b s => if keyLtB s b then s else b) r

/-- Representative selection of `optimize_rules` lines 230-240: a singleton
class keeps its only member (`rules_with_same_output[0]`), a larger class
keeps the `(len, lex)`-least member. -/
def keepRule (rs : List String) : String :=
  if rs.length = 1 then rs.headD "" else bestOf rs

/-- Insert a string into a sorted duplicate-free list, keeping it sorted and
duplicate-free. -/
def insortD (s : String) : List String → List String
  | [] => [s]
  | t :: ts =>
    if s = t then t :: ts
    else if charsLt s.data t.data then s :: t :: ts
    else t :: insortD s ts

/-- `tuple(sorted(outputs))` where `outputs` is a Python `set`: the distinct
elements in code-point order. -/
def sortDedup (l : List String) : List String := l.foldl (fun acc s => insortD s acc) []

/-- `test_rule_on_words(rule, test_words)` (lines 15-37) followed by the
`tuple(sorted(outputs))` of line 216, parameterised by the evaluator `ev`.
`ev` models the call to `apply_simple_rule` inside the per-word `try`:
`none` stands for a raised exception, which the bare `except: pass` of
line 34-35 turns into skipping that word only.  Falsy (empty) outputs are
dropped by `if output:` (line 32). -/
def sigOfEv (ev : String → String → Option String) (rule : String)
    (words : List String) : List String :=
  sortDedup (words.filterMap (fun w =>
    match ev w rule with
    | none => none
    | some out => if out = "" then none else some out))

/-- The evaluator actually used by the source: `apply_simple_rule`, which is
total on strings and never raises. -/
def evApply : String → String → Option String := fun w r => some (apply_simple_rule w r)

/-- Signature of a rule over the sample words, with the source's evaluator. -/
def sigOf (rule : String) (words : List String) : List String :=
  sigOfEv evApply rule words

/-- `output_to_rules[outputs_tuple].append(rule)` on a `defaultdict(list)`
(lines 208, 219): Python dicts preserve key insertion order, modelled by an
association list — an existing class gets the rule appended, a new signature
opens a new class at the end. -/
def addToClass (key : List String) (rule : String) :
    List (List String × List String) → List (List String × List String)
  | [] => [(key, [rule])]
  | (k, rs) :: rest =>
    if k = key then (k, rs ++ [rule]) :: rest
    else (k, rs) :: addToClass key rule rest

/-- The grouping loop of `optimize_rules` lines 210-224, generic in the
signature function. -/
def groupRules (sig : String → List String) (rules : List String) :
    List (List String × List String) :=
  rules.foldl (fun acc rule => addToClass (sig rule) rule acc) []

/-- Round-half-to-even on an exact rational, modelling Python's `round` on
the float value of the expression (exact for every value reached in this
development). -/
def roundHalfEven (q : ℚ) : ℤ :=
  let f : ℤ := ⌊q⌋
  let r : ℚ := q - f
  if r < 1/2 then f else if 1/2 < r then f + 1 else if f % 2 = 0 then f else f + 1

/-- Python `round(x, 1)`: round to one decimal place, half to even. -/
def pyRound1 (q : ℚ) : ℚ := (roundHalfEven (10 * q) : ℚ) / 10

/-- The `stats` dictionary built by `optimize_rules` lines 248-254. -/
structure OptStats where
  original_count : Nat
  optimized_count : Nat
  removed_count : Nat
  redundant_groups : Nat
  reduction_percent : ℚ
deriving DecidableEq

/-- `optimize_rules(rules, test_words)` (lines 187-263), generic in the
per-word evaluator `ev` (see `sigOfEv`).  With the source's evaluator the
whole-rule `try` of lines 214-224 can never fire (set construction and
sorting of strings do not raise), so the `UNIQUE_{i}` fallback branch is
unreachable and does not appear here. -/
def optimizeRulesEv (ev : String → String → Option String)
    (rules words : List String) : List String × OptStats :=
  let groups := groupRules (fun r => sigOfEv ev r words) rules
  let optimized := groups.map (fun g => keepRule g.2)
  (optimized,
    { original_count := rules.length
      optimized_count := optimized.length
      removed_count := rules.length - optimized.length
      redundant_groups := (groups.filter (fun g => 1 < g.2.length)).length
      reduction_percent :=
        if rules = [] then 0
        else pyRound1 ((1 - (optimized.length : ℚ) / (rules.length : ℚ)) * 100) })

/-- `optimize_rules` with the source's actual evaluator. -/
def optimize_rules (rules words : List String) : List String × OptStats :=
  optimizeRulesEv evApply rules words

/-- The set of outputs produced by applying all rules of `R` to a single word
`w`, stated after the words of claim C2 (the source itself never forms this
per-word set; it aggregates outputs over the whole sample). -/
def perWordOutputs (rules : List String) (w : String) : List String :=
  sortDedup (rules.map (fun r => apply_simple_rule w r))

/-- Number of op codes in a rule text, scanning exactly as the interpreter
does: each recognised operand-taking op consumes its operands, every other
character is one op. -/
def countOps : List Char → Nat
  | [] => 0
  | '$' :: _ :: rest => 1 + countOps rest
  | '^' :: _ :: rest => 1 + countOps rest
  | 's' :: _ :: _ :: rest => 1 + countOps rest
  | '@' :: _ :: rest => 1 + countOps rest
  | _ :: rest => 1 + countOps rest

/-- A concrete fallible evaluator: behaves exactly like `apply_simple_rule`
except that evaluating rule `"F"` on the sample word `"b"` raises
(modelled as `none`).  Used to exercise the failure-handling paths of
`optimize_rules`. -/
def evFail : String → String → Option String :=
  fun w r => if r = "F" ∧ w = "b" then none else some (apply_simple_rule w r)

/-- Python `haystack.find(needle)`: the index of the first occurrence of
`needle` as a contiguous substring (`find("") = 0`), with `none` standing
for the source's `-1`. -/
def firstIdxOf (needle : List Char) : List Char → Option Nat
  | [] => if needle = [] then some 0 else none
  | h :: t =>
    if needle.isPrefixOf (h :: t) then some 0
    else (firstIdxOf needle t).map (· + 1)

/-- The de-leet replacement pairs of `infer_hashcat_rule` lines 40-41, in
source order.  Note: no pair for `'!'` and none for `'5'`. -/
def deleetTable : List (Char × Char) :=
  [('@', 'a'), ('3', 'e'), ('0', 'o'), ('1', 'i'), ('$', 's'), ('7', 't'), ('4', 'a')]

/-- The sequential `pwd_deleet.replace(leet_char, orig_char)` loop of lines
39-42 (each replacement is of a single character, hence a character map). -/
def applyReplaces (l : List Char) : List Char :=
  deleetTable.foldl (fun acc p => acc.map (fun c => if c = p.1 then p.2 else c)) l

/-- Python `str.isupper` over ASCII: at least one cased character and no
lowercase one. -/
def pyIsUpper (l : List Char) : Bool :=
  l.any (fun c => c.isUpper || c.isLower) && l.all (fun c => !c.isLower)

/-- Python `str.islower` over ASCII: at least one cased character and no
uppercase one. -/
def pyIsLower (l : List Char) : Bool :=
  l.any (fun c => c.isUpper || c.isLower) && l.all (fun c => !c.isUpper)

/-- Step 2 of `infer_hashcat_rule` (lines 56-68): the case-op parts appended
to `rule_parts`.  `base_in_pwd` and `base_lower` are nonempty whenever the
source reaches this point (`base_word` is nonempty and the matched span has
its length); the wildcard arm is unreachable there. -/
def caseParts (baseInPwd baseLower baseWord : List Char) : List (List Char) :=
  match baseInPwd, baseLower with
  | b0 :: brest, l0 :: _ =>
    if b0.isUpper && l0.isLower then
      if pyIsLower brest then [['c']]
      else if pyIsUpper (b0 :: brest) then [['u']]
      else [['C']]
    else if pyIsUpper (b0 :: brest) then [['u']]
    else if pyIsLower (b0 :: brest) && pyIsUpper baseWord then [['l']]
    else []
  | _, _ => []

/-- The `leet_map` of `infer_hashcat_rule` lines 74-82: each
`(base char, password char)` key with its substitution op text (the dict's
keys are distinct, so association-list lookup models `dict.get`). -/
def leetPairs : List ((Char × Char) × List Char) :=
  [(('a', '@'), ['s', 'a', '@']), (('a', '4'), ['s', 'a', '4']),
   (('e', '3'), ['s', 'e', '3']),
   (('i', '1'), ['s', 'i', '1']), (('i', '!'), ['s', 'i', '!']),
   (('o', '0'), ['s', 'o', '0']),
   (('s', '$'), ['s', 's', '$']), (('s', '5'), ['s', 's', '5']),
   (('t', '7'), ['s', 't', '7']),
   (('l', '1'), ['s', 'l', '1'])]

/-- `leet_map.get((orig_char, pwd_char))` of line 84. -/
def leetMap (p : Char × Char) : Option (List Char) :=
  (leetPairs.find? (fun q => q.1 = p)).map (fun q => q.2)

/-- One iteration of the substitution loop of `infer_hashcat_rule`
(lines 71-86): when the pair of characters differs and is in the leet map,
append the op text unless the identical text is already among the parts. -/
def subStep (a : List (List Char)) (p : Char × Char) : List (List Char) :=
  if p.1 ≠ p.2 then
    match leetMap p with
    | some s => if s ∈ a then a else a ++ [s]
    | none => a
  else a

/-- Step 3 of `infer_hashcat_rule` (lines 71-86): walk the zipped
`(base_lower, matched span)` pairs in position order, applying `subStep`. -/
def addSubParts (acc : List (List Char)) (pairs : List (Char × Char)) : List (List Char) :=
  pairs.foldl subStep acc

/-- Lines 33-46 of `infer_hashcat_rule`: `base_start`, found by the direct
case-insensitive search and, failing that, by the search in the de-leeted
password. -/
def findBase (baseWord password : List Char) : Option Nat :=
  match firstIdxOf (baseWord.map Char.toLower) (password.map Char.toLower) with
  | some i => some i
  | none =>
    firstIdxOf (baseWord.map Char.toLower) (applyReplaces (password.map Char.toLower))

/-- Lines 48-93 of `infer_hashcat_rule`, for a located `base_start = bs`:
the accumulated `rule_parts`.  Compared with the source:
`base_lower = baseWord.map Char.toLower`,
`pwd_lower = password.map Char.toLower`; the prefix characters become
`^`-parts in reversed order, the matched span's case ops come from
`caseParts`, the substitution parts from `addSubParts`, and the suffix
characters become `$`-parts in order. -/
def buildParts (baseWord password : List Char) (bs : Nat) : List (List Char) :=
  addSubParts
      (((password.take bs).reverse).map (fun c => ['^', c]) ++
        caseParts ((password.drop bs).take baseWord.length)
          (baseWord.map Char.toLower) baseWord)
      ((baseWord.map Char.toLower).zip
        (((password.map Char.toLower).drop bs).take
          (baseWord.map Char.toLower).length)) ++
    (if bs + baseWord.length < password.length
     then (password.drop (bs + baseWord.length)).map (fun c => ['$', c])
     else [])

/-- `infer_hashcat_rule(base_word, password)` (lines 12-99) up to the final
join: the list of rule parts, or `none` for the `NotFound` outcomes (empty
input, or base word not found even after de-leeting). -/
def inferParts (baseWord password : List Char) : Option (List (List Char)) :=
  if baseWord = [] ∨ password = [] then none
  else
    match findBase baseWord password with
    | none => none
    | some bs => some (buildParts baseWord password bs)

/-- `infer_hashcat_rule` itself: join the parts (`''.join(rule_parts)`), with
the identity rule `":"` returned for an empty parts list (lines 96-99). -/
def infer_hashcat_rule (baseWord password : String) : Option String :=
  match inferParts baseWord.data password.data with
  | none => none
  | some parts => if parts ≠ [] then some ⟨parts.flatten⟩ else some ":"

/-- Modelled from the spec: the parser `parse(text) -> RuleProgram | SyntaxError`
described in §4.1 and claim C5, which the source does not have (the source
interpreter scans and silently skips unknown or truncated ops).  Scans left to
right; each op code consumes itself plus its required operands (`$X`, `^X`,
`sXY`, `@X`); an unknown op code or an op whose operand is missing at end of
text yields `SyntaxError{position, code}`, here `(position, code)`. -/
def specParse : List Char → Nat → Except (Nat × Char) (List (List Char))
  | [], _ => .ok []
  | '$' :: x :: rest, pos => (specParse rest (pos + 2)).map (fun ps => ['$', x] :: ps)
  | '^' :: x :: rest, pos => (specParse rest (pos + 2)).map (fun ps => ['^', x] :: ps)
  | '@' :: x :: rest, pos => (specParse rest (pos + 2)).map (fun ps => ['@', x] :: ps)
  | 's' :: x :: y :: rest, pos => (specParse rest (pos + 3)).map (fun ps => ['s', x, y] :: ps)
  | c :: rest, pos =>
    if c = ':' ∨ c = 'l' ∨ c = 'u' ∨ c = 'c' ∨ c = 'C' ∨ c = 't' ∨ c = 'r' ∨
       c = 'd' ∨ c = 'z' ∨ c = 'Z'
    then (specParse rest (pos + 1)).map (fun ps => [c] :: ps)
    else .error (pos, c)

/-- Modelled from the spec: the de-leet table of claim C7 and §4.2 step 1,
`@/4→a, 3→e, 1/!→i, 0→o, $/5→s, 7→t` — which, unlike the source's
`deleetTable`, maps `'!'` to `'i'` and `'5'` to `'s'`. -/
def specDeleet (l : List Char) : List Char :=
  l.map (fun c =>
    if c = '@' ∨ c = '4' then 'a'
    else if c = '3' then 'e'
    else if c = '1' ∨ c = '!' then 'i'
    else if c = '0' then 'o'
    else if c = '$' ∨ c = '5' then 's'
    else if c = '7' then 't'
    else c)

end Mangler

namespace Mangler

/-- Spec scenario: `apply("password", parse("c$1$2$3")) == "Password123"`,
also asserted by the repository's own test in `test_functionality.py`. -/
theorem apply_scenario_capitalize_append :
    apply_simple_rule "password" "c$1$2$3" = "Password123" := by decide

/-- Spec scenario: `apply("ADMIN", parse("l")) == "admin"`. -/
theorem apply_scenario_lowercase : apply_simple_rule "ADMIN" "l" = "admin" := by decide

/-- Spec scenario: `infer_rule("admin", "Admin2024!")` yields `"c$2$0$2$4$!"`. -/
theorem infer_scenario_admin :
    infer_hashcat_rule "admin" "Admin2024!" = some "c$2$0$2$4$!" := by decide

/-- Docstring example of `infer_hashcat_rule`:
`("admin", "@dmin2024") → "sa@$2$0$2$4"`. -/
theorem infer_scenario_leet :
    infer_hashcat_rule "admin" "@dmin2024" = some "sa@$2$0$2$4" := by decide

theorem str_ext {a b : String} (h : a.data = b.data) : a = b := by
  cases a; cases b; exact congrArg String.mk h

theorem data_ne_nil {s : String} (h : s ≠ "") : s.data ≠ [] := by
  intro hd
  exact h (str_ext (hd.trans (rfl : ([] : List Char) = "".data)))

theorem charsLt_irrefl : ∀ l : List Char, charsLt l l = false
  | [] => rfl
  | a :: as => by
    simp only [charsLt, lt_irrefl, if_false, if_neg]
    exact charsLt_irrefl as

theorem charsLt_trans (a : List Char) : ∀ b c : List Char,
    charsLt a b = true → charsLt b c = true → charsLt a c = true := by
  induction a with
  | nil =>
    intro b c h1 h2
    cases b with
    | nil => simp [charsLt] at h1
    | cons bh bt =>
      cases c with
      | nil => simp [charsLt] at h2
      | cons ch ct => simp [charsLt]
  | cons ah as ih =>
    intro b c h1 h2
    cases b with
    | nil => simp [charsLt] at h1
    | cons bh bt =>
      cases c with
      | nil => simp [charsLt] at h2
      | cons ch ct =>
        simp only [charsLt] at h1 h2 ⊢
        rcases lt_trichotomy ah bh with hab | hab | hab
        · rcases lt_trichotomy bh ch with hbc | hbc | hbc
          · simp [lt_trans hab hbc]
          · subst hbc; simp [hab]
          · simp [asymm hbc, hbc] at h2
        · subst hab
          rcases lt_trichotomy ah ch with hbc | hbc | hbc
          · simp [hbc]
          · subst hbc
            simp only [lt_irrefl, if_false, if_neg] at h1 h2 ⊢
            exact ih bt ct h1 h2
          · simp [asymm hbc, hbc] at h2
        · simp [asymm hab, hab] at h1

theorem charsLt_tri (a : List Char) : ∀ b : List Char,
    charsLt a b = true ∨ a = b ∨ charsLt b a = true := by
  induction a with
  | nil =>
    intro b
    cases b with
    | nil => exact Or.inr (Or.inl rfl)
    | cons bh bt => exact Or.inl (by simp [charsLt])
  | cons ah as ih =>
    intro b
    cases b with
    | nil => exact Or.inr (Or.inr (by simp [charsLt]))
    | cons bh bt =>
      rcases lt_trichotomy ah bh with h | h | h
      · exact Or.inl (by simp [charsLt, h])
      · subst h
        rcases ih bt with h' | h' | h'
        · exact Or.inl (by simp [charsLt, lt_irrefl, h'])
        · exact Or.inr (Or.inl (by rw [h']))
        · exact Or.inr (Or.inr (by simp [charsLt, lt_irrefl, h']))
      · exact Or.inr (Or.inr (by simp [charsLt, h]))

theorem keyLtB_iff (a b : String) :
    keyLtB a b = true ↔
      a.length < b.length ∨ (a.length = b.length ∧ charsLt a.data b.data = true) := by
  unfold keyLtB
  by_cases h1 : a.length < b.length
  · simp [h1]
  · by_cases h2 : b.length < a.length
    · have h3 : a.length ≠ b.length := by omega
      simp [h1, h2, h3]
    · have h3 : a.length = b.length := by omega
      simp [h1, h2, h3]

theorem keyLt_irrefl (a : String) : keyLtB a a = false := by
  unfold keyLtB
  simp [charsLt_irrefl]

theorem keyLt_trans {a b c : String} (h1 : keyLtB a b = true) (h2 : keyLtB b c = true) :
    keyLtB a c = true := by
  rw [keyLtB_iff] at h1 h2 ⊢
  rcases h1 with h1 | ⟨h1, h1'⟩
  · rcases h2 with h2 | ⟨h2, _⟩
    · exact Or.inl (h1.trans h2)
    · exact Or.inl (h2 ▸ h1)
  · rcases h2 with h2 | ⟨h2, h2'⟩
    · exact Or.inl (h1 ▸ h2)
    · exact Or.inr ⟨h1.trans h2, charsLt_trans a.data b.data c.data h1' h2'⟩

theorem keyLt_tri (a b : String) : keyLtB a b = true ∨ a = b ∨ keyLtB b a = true := by
  rcases Nat.lt_trichotomy a.length b.length with h | h | h
  · exact Or.inl ((keyLtB_iff a b).mpr (Or.inl h))
  · rcases charsLt_tri a.data b.data with h' | h' | h'
    · exact Or.inl ((keyLtB_iff a b).mpr (Or.inr ⟨h, h'⟩))
    · exact Or.inr (Or.inl (str_ext h'))
    · exact Or.inr (Or.inr ((keyLtB_iff b a).mpr (Or.inr ⟨h.symm, h'⟩)))
  · exact Or.inr (Or.inr ((keyLtB_iff b a).mpr (Or.inl h)))

theorem bestOf_go_mem (l : List String) : ∀ b : String,
    l.foldl (fun b s => if keyLtB s b then s else b) b = b ∨
    l.foldl (fun b s => if keyLtB s b then s else b) b ∈ l := by
  induction l with
  | nil => intro b; exact Or.inl rfl
  | cons s t ih =>
    intro b
    simp only [List.foldl_cons]
    rcases ih (if keyLtB s b then s else b) with h | h
    · rw [h]
      by_cases hs : keyLtB s b = true
      · rw [if_pos hs]; exact Or.inr (List.mem_cons_self s t)
      · rw [if_neg hs]; exact Or.inl rfl
    · exact Or.inr (List.mem_cons_of_mem s h)

theorem bestOf_go_min (l : List String) : ∀ b r : String,
    (r = b ∨ r ∈ l) →
    keyLtB r (l.foldl (fun b s => if keyLtB s b then s else b) b) = false := by
  induction l with
  | nil =>
    intro b r hr
    rcases hr with rfl | h
    · exact keyLt_irrefl r
    · cases h
  | cons s t ih =>
    intro b r hr
    simp only [List.foldl_cons]
    by_cases hs : keyLtB s b = true
    · rw [if_pos hs]
      rcases hr with rfl | hmem
      · cases hrb : keyLtB r (t.foldl (fun b s => if keyLtB s b then s else b) s) with
        | false => rfl
        | true =>
          have h1 := ih s s (Or.inl rfl)
          have h2 := keyLt_trans hs hrb
          rw [h1] at h2
          cases h2
      · rcases List.mem_cons.mp hmem with rfl | hmem'
        · exact ih r r (Or.inl rfl)
        · exact ih s r (Or.inr hmem')
    · rw [if_neg hs]
      rcases hr with rfl | hmem
      · exact ih r r (Or.inl rfl)
      · rcases List.mem_cons.mp hmem with rfl | hmem'
        · cases hrb : keyLtB r (t.foldl (fun b s => if keyLtB s b then s else b) b) with
          | false => rfl
          | true =>
            have h2 := ih b b (Or.inl rfl)
            rcases keyLt_tri r b with h | h | h
            · exact absurd h (by simpa using hs)
            · rw [h] at hrb; rw [h2] at hrb; cases hrb
            · have h3 := keyLt_trans h hrb
              rw [h2] at h3; cases h3
        · exact ih b r (Or.inr hmem')

theorem bestOf_mem : ∀ rs : List String, rs ≠ [] → bestOf rs ∈ rs
  | [], h => absurd rfl h
  | r :: rest, _ => by
    show List.foldl (fun b s => if keyLtB s b then s else b) r rest ∈ r :: rest
    rcases bestOf_go_mem rest r with h | h
    · rw [h]; exact List.mem_cons_self r rest
    · exact List.mem_cons_of_mem r h

theorem bestOf_min : ∀ rs : List String, ∀ r ∈ rs, keyLtB r (bestOf rs) = false
  | [], r, h => absurd h (List.not_mem_nil r)
  | s :: rest, r, h => by
    show keyLtB r (List.foldl (fun b s => if keyLtB s b then s else b) s rest) = false
    rcases List.mem_cons.mp h with rfl | h'
    · exact bestOf_go_min rest r r (Or.inl rfl)
    · exact bestOf_go_min rest s r (Or.inr h')

theorem keepRule_eq_bestOf : ∀ rs : List String, rs ≠ [] → keepRule rs = bestOf rs
  | [], h => absurd rfl h
  | [r], _ => rfl
  | r :: s :: t, _ => by
    unfold keepRule
    rw [if_neg (by simp only [List.length_cons]; omega)]

theorem keepRule_mem (rs : List String) (h : rs ≠ []) : keepRule rs ∈ rs := by
  rw [keepRule_eq_bestOf rs h]
  exact bestOf_mem rs h

theorem addToClass_len (key : List String) (r : String) :
    ∀ acc : List (List String × List String),
      (addToClass key r acc).length ≤ acc.length + 1
  | [] => by simp [addToClass]
  | (k, rs) :: rest => by
    unfold addToClass
    by_cases h : k = key
    · rw [if_pos h]; simp
    · rw [if_neg h]
      simp only [List.length_cons]
      have := addToClass_len key r rest
      omega

theorem groupRules_go_len (sig : String → List String) :
    ∀ (l : List String) (acc : List (List String × List String)),
      (l.foldl (fun acc rule => addToClass (sig rule) rule acc) acc).length ≤
        acc.length + l.length := by
  intro l
  induction l with
  | nil => intro acc; simp
  | cons r t ih =>
    intro acc
    simp only [List.foldl_cons, List.length_cons]
    have h1 := ih (addToClass (sig r) r acc)
    have h2 := addToClass_len (sig r) r acc
    omega

theorem groupRules_len (sig : String → List String) (rules : List String) :
    (groupRules sig rules).length ≤ rules.length := by
  have h := groupRules_go_len sig rules []
  simpa [groupRules] using h

theorem addToClass_mem_new (key : List String) (r : String) :
    ∀ acc : List (List String × List String),
      ∃ p ∈ addToClass key r acc, p.1 = key ∧ r ∈ p.2
  | [] => ⟨(key, [r]), by simp [addToClass]⟩
  | (k, rs) :: rest => by
    unfold addToClass
    by_cases h : k = key
    · rw [if_pos h]
      exact ⟨(k, rs ++ [r]), List.mem_cons_self _ _, h, by simp⟩
    · rw [if_neg h]
      obtain ⟨p, hp, hk, hr⟩ := addToClass_mem_new key r rest
      exact ⟨p, List.mem_cons_of_mem _ hp, hk, hr⟩

theorem addToClass_mem_old (key : List String) (r x : String) :
    ∀ acc : List (List String × List String), ∀ p ∈ acc, x ∈ p.2 →
      ∃ q ∈ addToClass key r acc, q.1 = p.1 ∧ x ∈ q.2
  | [], p, hp, _ => absurd hp (List.not_mem_nil p)
  | (k, rs) :: rest, p, hp, hx => by
    unfold addToClass
    by_cases h : k = key
    · rw [if_pos h]
      rcases List.mem_cons.mp hp with rfl | hp'
      · exact ⟨(k, rs ++ [r]), List.mem_cons_self _ _, rfl, List.mem_append_left _ hx⟩
      · exact ⟨p, List.mem_cons_of_mem _ hp', rfl, hx⟩
    · rw [if_neg h]
      rcases List.mem_cons.mp hp with rfl | hp'
      · exact ⟨(k, rs), List.mem_cons_self _ _, rfl, hx⟩
      · obtain ⟨q, hq, hk, hx'⟩ := addToClass_mem_old key r x rest p hp' hx
        exact ⟨q, List.mem_cons_of_mem _ hq, hk, hx'⟩

theorem groupRules_go_mem (sig : String → List String) :
    ∀ (l : List String) (acc : List (List String × List String)) (x : String),
      ((∃ p ∈ acc, p.1 = sig x ∧ x ∈ p.2) ∨ x ∈ l) →
      ∃ p ∈ l.foldl (fun acc rule => addToClass (sig rule) rule acc) acc,
        p.1 = sig x ∧ x ∈ p.2 := by
  intro l
  induction l with
  | nil =>
    intro acc x h
    rcases h with h | h
    · exact h
    · cases h
  | cons r t ih =>
    intro acc x h
    simp only [List.foldl_cons]
    apply ih
    rcases h with ⟨p, hp, h1, h2⟩ | h
    · left
      obtain ⟨q, hq, hk, hx⟩ := addToClass_mem_old (sig r) r x acc p hp h2
      exact ⟨q, hq, hk.trans h1, hx⟩
    · rcases List.mem_cons.mp h with rfl | h'
      · left
        obtain ⟨q, hq, hk, hx⟩ := addToClass_mem_new (sig x) x acc
        exact ⟨q, hq, hk, hx⟩
      · right; exact h'

theorem groupRules_mem (sig : String → List String) (rules : List String)
    (x : String) (hx : x ∈ rules) :
    ∃ p ∈ groupRules sig rules, p.1 = sig x ∧ x ∈ p.2 :=
  groupRules_go_mem sig rules [] x (Or.inr hx)

theorem addToClass_inv (sig : String → List String) (L : List String)
    (key : List String) (r : String) (hkey : sig r = key) (hrL : r ∈ L) :
    ∀ acc : List (List String × List String),
      (∀ p ∈ acc, p.2 ≠ [] ∧ ∀ x ∈ p.2, sig x = p.1 ∧ x ∈ L) →
      ∀ p ∈ addToClass key r acc, p.2 ≠ [] ∧ ∀ x ∈ p.2, sig x = p.1 ∧ x ∈ L
  | [], _, p, hp => by
    simp only [addToClass, List.mem_singleton] at hp
    subst hp
    refine ⟨by simp, ?_⟩
    intro x hx
    simp only [List.mem_singleton] at hx
    subst hx
    exact ⟨hkey, hrL⟩
  | (k, rs) :: rest, hacc, p, hp => by
    unfold addToClass at hp
    by_cases h : k = key
    · rw [if_pos h] at hp
      rcases List.mem_cons.mp hp with rfl | hp'
      · refine ⟨by simp, ?_⟩
        intro x hx
        rcases List.mem_append.mp hx with hx' | hx'
        · exact (hacc (k, rs) (List.mem_cons_self _ _)).2 x hx'
        · simp only [List.mem_singleton] at hx'
          subst hx'
          exact ⟨hkey.trans h.symm, hrL⟩
      · exact hacc p (List.mem_cons_of_mem _ hp')
    · rw [if_neg h] at hp
      rcases List.mem_cons.mp hp with rfl | hp'
      · exact hacc (k, rs) (List.mem_cons_self _ _)
      · exact addToClass_inv sig L key r hkey hrL rest
          (fun q hq => hacc q (List.mem_cons_of_mem _ hq)) p hp'

theorem groupRules_go_inv (sig : String → List String) (L : List String) :
    ∀ l : List String, (∀ r ∈ l, r ∈ L) →
      ∀ acc : List (List String × List String),
      (∀ p ∈ acc, p.2 ≠ [] ∧ ∀ x ∈ p.2, sig x = p.1 ∧ x ∈ L) →
      ∀ p ∈ l.foldl (fun acc rule => addToClass (sig rule) rule acc) acc,
        p.2 ≠ [] ∧ ∀ x ∈ p.2, sig x = p.1 ∧ x ∈ L := by
  intro l
  induction l with
  | nil => intro _ acc hacc p hp; exact hacc p hp
  | cons r t ih =>
    intro hl acc hacc
    simp only [List.foldl_cons]
    apply ih
    · intro x hx; exact hl x (List.mem_cons_of_mem _ hx)
    · exact addToClass_inv sig L (sig r) r rfl (hl r (List.mem_cons_self _ _)) acc hacc

theorem groupRules_inv (sig : String → List String) (rules : List String) :
    ∀ p ∈ groupRules sig rules, p.2 ≠ [] ∧ ∀ x ∈ p.2, sig x = p.1 ∧ x ∈ rules :=
  groupRules_go_inv sig rules rules (fun _ h => h) []
    (fun p hp => absurd hp (List.not_mem_nil p))

theorem optimizeRulesEv_fst (ev : String → String → Option String)
    (rules words : List String) :
    (optimizeRulesEv ev rules words).1 =
      (groupRules (fun r => sigOfEv ev r words) rules).map (fun g => keepRule g.2) := rfl

theorem optimize_rules_fst (rules words : List String) :
    (optimize_rules rules words).1 =
      (groupRules (fun r => sigOf r words) rules).map (fun g => keepRule g.2) := rfl

theorem optimize_len (ev : String → String → Option String) (rules words : List String) :
    (optimizeRulesEv ev rules words).1.length ≤ rules.length := by
  rw [optimizeRulesEv_fst, List.length_map]
  exact groupRules_len (fun r => sigOfEv ev r words) rules

theorem optimize_represents (ev : String → String → Option String)
    (rules words : List String) (r : String) (hr : r ∈ rules) :
    ∃ q ∈ (optimizeRulesEv ev rules words).1,
      sigOfEv ev q words = sigOfEv ev r words := by
  obtain ⟨p, hp, h1, h2⟩ := groupRules_mem (fun r => sigOfEv ev r words) rules r hr
  have hinv := groupRules_inv (fun r => sigOfEv ev r words) rules p hp
  refine ⟨keepRule p.2, ?_, ?_⟩
  · rw [optimizeRulesEv_fst]
    exact List.mem_map_of_mem (fun g => keepRule g.2) hp
  · have hmem := keepRule_mem p.2 hinv.1
    have h3 := (hinv.2 (keepRule p.2) hmem).1
    exact h3.trans h1

theorem optimize_subset (ev : String → String → Option String)
    (rules words : List String) :
    ∀ q ∈ (optimizeRulesEv ev rules words).1, q ∈ rules := by
  intro q hq
  rw [optimizeRulesEv_fst] at hq
  obtain ⟨p, hp, hpq⟩ := List.mem_map.mp hq
  have hinv := groupRules_inv (fun r => sigOfEv ev r words) rules p hp
  rw [← hpq]
  exact (hinv.2 (keepRule p.2) (keepRule_mem p.2 hinv.1)).2

theorem leetMap_len {p : Char × Char} {s : List Char} (h : leetMap p = some s) :
    s.length = 3 := by
  unfold leetMap at h
  cases hf : leetPairs.find? (fun q => q.1 = p) with
  | none => rw [hf] at h; cases h
  | some q =>
    rw [hf] at h
    simp only [Option.map_some', Option.some.injEq] at h
    have hq : q ∈ leetPairs := List.mem_of_find?_eq_some hf
    have hall : ∀ x ∈ leetPairs, x.2.length = 3 := by decide
    rw [← h]
    exact hall q hq

theorem subStep_filter_nodup (a : List (List Char)) (p : Char × Char)
    (h : (a.filter (fun q => q.length == 3)).Nodup) :
    ((subStep a p).filter (fun q => q.length == 3)).Nodup := by
  unfold subStep
  by_cases hne : p.1 ≠ p.2
  · rw [if_pos hne]
    cases hl : leetMap p with
    | none => exact h
    | some s =>
      show ((if s ∈ a then a else a ++ [s]).filter (fun q => q.length == 3)).Nodup
      by_cases hmem : s ∈ a
      · rw [if_pos hmem]; exact h
      · rw [if_neg hmem, List.filter_append]
        have hs3 : (fun q : List Char => q.length == 3) s = true := by
          simp [leetMap_len hl]
        have hfs : List.filter (fun q : List Char => q.length == 3) [s] = [s] := by
          simp [hs3]
        rw [hfs]
        refine List.Nodup.append h (List.nodup_singleton s) ?_
        intro x hx hx'
        simp only [List.mem_singleton] at hx'
        subst hx'
        exact hmem (List.mem_of_mem_filter hx)
  · rw [if_neg hne]; exact h

theorem addSubParts_filter_nodup (pairs : List (Char × Char)) :
    ∀ acc : List (List Char),
      (acc.filter (fun q => q.length == 3)).Nodup →
      ((addSubParts acc pairs).filter (fun q => q.length == 3)).Nodup := by
  induction pairs with
  | nil => intro acc h; exact h
  | cons p rest ih =>
    intro acc h
    show ((List.foldl subStep (subStep acc p) rest).filter (fun q => q.length == 3)).Nodup
    exact ih (subStep acc p) (subStep_filter_nodup acc p h)

theorem caseParts_filter (a b c : List Char) :
    (caseParts a b c).filter (fun q => q.length == 3) = [] := by
  unfold caseParts
  split
  · split
    · split
      · rfl
      · split
        · rfl
        · rfl
    · split
      · rfl
      · split
        · rfl
        · rfl
  · rfl

theorem map_pair_filter (op : Char) (l : List Char) :
    (l.map (fun c => [op, c])).filter (fun q => q.length == 3) = [] := by
  rw [List.filter_eq_nil_iff]
  intro a ha
  obtain ⟨c, _, rfl⟩ := List.mem_map.mp ha
  simp

theorem applyRuleGo_dups (k : Nat) : ∀ w : List Char,
    (applyRuleGo (List.replicate k 'd') w).length = w.length * 2 ^ k := by
  induction k with
  | zero => intro w; simp [applyRuleGo]
  | succ n ih =>
    intro w
    rw [List.replicate_succ]
    have step : applyRuleGo ('d' :: List.replicate n 'd') w =
        applyRuleGo (List.replicate n 'd') (w ++ w) := rfl
    rw [step, ih (w ++ w), List.length_append, pow_succ]
    ring

theorem findBase_none_iff (b p : List Char) :
    findBase b p = none ↔
      firstIdxOf (b.map Char.toLower) (p.map Char.toLower) = none ∧
      firstIdxOf (b.map Char.toLower) (applyReplaces (p.map Char.toLower)) = none := by
  unfold findBase
  cases h1 : firstIdxOf (b.map Char.toLower) (p.map Char.toLower) with
  | some i => simp
  | none =>
    cases h2 : firstIdxOf (b.map Char.toLower) (applyReplaces (p.map Char.toLower)) with
    | some i => simp
    | none => simp

theorem inferParts_none_iff (b p : List Char) (hb : b ≠ []) (hp : p ≠ []) :
    inferParts b p = none ↔ findBase b p = none := by
  unfold inferParts
  rw [if_neg (by simp [hb, hp])]
  cases hfb : findBase b p with
  | some bs => simp
  | none => simp

theorem inferParts_some {b p : List Char} {ps : List (List Char)}
    (h : inferParts b p = some ps) : ∃ bs, ps = buildParts b p bs := by
  unfold inferParts at h
  by_cases h0 : b = [] ∨ p = []
  · rw [if_pos h0] at h; exact Option.noConfusion h
  · rw [if_neg h0] at h
    cases hfb : findBase b p with
    | none => rw [hfb] at h; exact Option.noConfusion h
    | some bs =>
      rw [hfb] at h
      injection h with h
      exact ⟨bs, h.symm⟩

theorem buildParts_filter_nodup (b p : List Char) (bs : Nat) :
    ((buildParts b p bs).filter (fun q => q.length == 3)).Nodup := by
  unfold buildParts
  rw [List.filter_append]
  have happ : (List.filter (fun q : List Char => q.length == 3)
      (if bs + b.length < p.length
       then (p.drop (bs + b.length)).map (fun c => ['$', c])
       else [])) = [] := by
    by_cases hc : bs + b.length < p.length
    · rw [if_pos hc]; exact map_pair_filter '$' _
    · rw [if_neg hc]; rfl
  rw [happ, List.append_nil]
  apply addSubParts_filter_nodup
  rw [List.filter_append, map_pair_filter '^' _, caseParts_filter]
  exact List.nodup_nil

theorem infer_none_iff (b p : String) :
    infer_hashcat_rule b p = none ↔ inferParts b.data p.data = none := by
  unfold infer_hashcat_rule
  cases h : inferParts b.data p.data with
  | none => simp
  | some parts =>
    by_cases hne : parts ≠ []
    · simp [hne]
    · simp [hne]

/-- C1: the claim (and the function's own docstring and the spec's
guarantee) promises that whenever `infer_hashcat_rule(base, observed)`
succeeds, applying the returned rule to `base` with `apply_simple_rule`
yields `observed`, and out-of-model transformations yield `NotFound`.
The code violates this: for base `"abc"` and observed `"aBC"` — a case
pattern outside {`c`, `u`, `C`, `l`} — inference succeeds with the identity
rule `":"`, whose application returns `"abc"`, not `"aBC"`. -/
theorem C1_roundtrip_violated :
    infer_hashcat_rule "abc" "aBC" = some ":" ∧
    apply_simple_rule "abc" ":" = "abc" ∧ "abc" ≠ "aBC" := by decide

/-- C2 counterexample: `optimize_rules` merges rules by their aggregate
output set over the whole sample, not per word.  On rules `[":", "r"]` and
sample `["ab", "ba"]` both rules have aggregate signature `{"ab", "ba"}`,
so `"r"` is removed — but on the single sample word `"ab"` the output set
of the original rules is `{"ab", "ba"}` while the minimized list produces
only `{"ab"}`: per-word coverage is not preserved. -/
theorem C2_counterexample :
    (optimize_rules [":", "r"] ["ab", "ba"]).1 = [":"] ∧
    perWordOutputs [":", "r"] "ab" ≠ perWordOutputs [":"] "ab" := by decide

/-- C2 (amended): `optimize_rules(R, S)` returns `R'` with `|R'| ≤ |R|`,
every rule of `R'` is a rule of `R`, and every rule of `R` is represented
in `R'` by a rule with the same aggregate output signature over the whole
sample `S` (so the union over `S` of the outputs is preserved); per-word
output sets are not preserved. -/
theorem C2_minimizer_sound (rules words : List String) :
    (optimize_rules rules words).1.length ≤ rules.length ∧
    (∀ r ∈ rules, ∃ q ∈ (optimize_rules rules words).1,
      sigOf q words = sigOf r words) ∧
    (∀ q ∈ (optimize_rules rules words).1, q ∈ rules) := by
  refine ⟨optimize_len evApply rules words, ?_, optimize_subset evApply rules words⟩
  intro r hr
  exact optimize_represents evApply rules words r hr

theorem C2_minimizer_sound_witness :
    ∃ q ∈ (optimize_rules [":", "c"] ["ab"]).1, sigOf q ["ab"] = sigOf ":" ["ab"] :=
  (C2_minimizer_sound [":", "c"] ["ab"]).2.1 ":" (by decide)

/-- C3 counterexample: a rule whose evaluation fails on a sample word is not
given a unique singleton signature keyed by its text — the bare
`except: pass` inside `test_rule_on_words` merely skips that word, so the
failing rule gets an ordinary signature out of its remaining outputs and
can be merged with other rules.  With an evaluator that raises for rule
`"F"` on word `"b"` only, rules `"F"` and `"@b"` both get signature
`["a"]` over the sample `["a", "b"]` and are merged into the single
representative `"F"`. -/
theorem C3_counterexample :
    evFail "b" "F" = none ∧
    (optimizeRulesEv evFail ["F", "@b"] ["a", "b"]).1 = ["F"] := by decide

/-- C3 (amended): evaluation failures are isolated per word and per rule —
every rule, including one whose evaluation fails on some sample words, is
still evaluated (the failing words are skipped) and is represented in the
optimizer's output by a rule with the same signature; no rule's failure
aborts the evaluation of the others. -/
theorem C3_failure_isolated (ev : String → String → Option String)
    (rules words : List String) (r : String) (hr : r ∈ rules) :
    ∃ q ∈ (optimizeRulesEv ev rules words).1,
      sigOfEv ev q words = sigOfEv ev r words :=
  optimize_represents ev rules words r hr

theorem C3_failure_isolated_witness :
    ∃ q ∈ (optimizeRulesEv evFail ["F", "@b"] ["a", "b"]).1,
      sigOfEv evFail q ["a", "b"] = sigOfEv evFail "F" ["a", "b"] :=
  C3_failure_isolated evFail ["F", "@b"] ["a", "b"] "F" (by decide)

/-- C4 counterexample: `apply_simple_rule` enforces no maximum output
length — it returns a plain word for every input and there is no bound `M`
on the length of its results (chains of `d` ops double the word
indefinitely); no `LengthExceeded` outcome exists in the code. -/
theorem C4_counterexample :
    ¬ ∃ M : Nat, ∀ w rule : String, (apply_simple_rule w rule).length ≤ M := by
  rintro ⟨M, h⟩
  have h1 := h "a" (String.mk (List.replicate (M + 1) 'd'))
  have e : (apply_simple_rule "a" (String.mk (List.replicate (M + 1) 'd'))).length =
      (applyRuleGo (List.replicate (M + 1) 'd') ['a']).length := rfl
  rw [e, applyRuleGo_dups (M + 1) ['a']] at h1
  simp at h1
  have h3 : M < 2 ^ M := Nat.lt_two_pow M
  have h4 : 2 ^ M ≤ 2 ^ (M + 1) := Nat.pow_le_pow_right (by omega) (by omega)
  omega

/-- C4 (amended): execution has no output-length guard: a chain of `k`
duplication ops `d` applied to a one-character word returns an ordinary
word of length `2 ^ k`, growing without bound, instead of any
`LengthExceeded` error. -/
theorem C4_no_length_guard (k : Nat) :
    (apply_simple_rule "a" (String.mk (List.replicate k 'd'))).length = 2 ^ k := by
  have e : (apply_simple_rule "a" (String.mk (List.replicate k 'd'))).length =
      (applyRuleGo (List.replicate k 'd') ['a']).length := rfl
  rw [e, applyRuleGo_dups k ['a']]
  simp

/-- C5 counterexample: the code has no parse stage and no `SyntaxError`.
The spec-modelled parser rejects the text `"q"` with
`SyntaxError{position: 0, code: 'q'}`, but `apply_simple_rule` accepts and
executes `"q"` as a no-op, leaving the word unchanged. -/
theorem C5_counterexample :
    specParse "q".data 0 = Except.error (0, 'q') ∧
    apply_simple_rule "abc" "q" = "abc" := ⟨rfl, by decide⟩

/-- C5 (amended): `apply_simple_rule` scans left to right with each
operand-taking op (`$X`, `^X`, `sXY`, `@X`) consuming its operands, but it
reports no errors: an unknown op code (`"q"`) and an op whose operand is
missing at end of text (`"$"`, `"sa"`) are silently skipped, leaving the
word unchanged. -/
theorem C5_no_syntax_errors (w : String) :
    apply_simple_rule w "q" = w ∧ apply_simple_rule w "$" = w ∧
    apply_simple_rule w "sa" = w := by
  refine ⟨?_, ?_, ?_⟩ <;> (cases w with | mk data => rfl)

/-- C6 counterexample: for base `"aa"` and observed `"@4"` the synthesis
emits `sa@` and then `sa4` — two substitution ops with the same source
character `'a'` and different targets, because deduplication is by the
exact op text, not per source character. -/
theorem C6_counterexample :
    infer_hashcat_rule "aa" "@4" = some "sa@sa4" ∧
    inferParts "aa".data "@4".data = some [['s', 'a', '@'], ['s', 'a', '4']] := by decide

/-- C6 (amended): substitution ops are emitted in position-ascending scan
order with first-seen-wins per exact `(source, target)` pair: the
substitution parts of an inferred rule (its length-3 parts — all other
parts have length 1 or 2) never contain the same op twice; but two ops
with the same source character and different targets can both appear. -/
theorem C6_subs_nodup (baseWord password : List Char) (ps : List (List Char))
    (h : inferParts baseWord password = some ps) :
    (ps.filter (fun q => q.length == 3)).Nodup := by
  obtain ⟨bs, rfl⟩ := inferParts_some h
  exact buildParts_filter_nodup baseWord password bs

theorem C6_subs_nodup_witness :
    (([['s', 'a', '@'], ['s', 'a', '4']] : List (List Char)).filter
      (fun q => q.length == 3)).Nodup :=
  C6_subs_nodup "aa".data "@4".data [['s', 'a', '@'], ['s', 'a', '4']] (by decide)

/-- C7 counterexample: the source's de-leet table has no entry for `'!'`
or `'5'`: inferring base `"is"` from observed `"!5"` returns `NotFound`,
although under the table stated by the claim (`!→i`, `5→s`) the de-leeted
observed word would contain the base at index 0. -/
theorem C7_counterexample :
    infer_hashcat_rule "is" "!5" = none ∧
    firstIdxOf "is".data (specDeleet "!5".data) = some 0 := by decide

/-- C7 (amended): for nonempty base and observed, inference returns
`NotFound` exactly when the case-insensitive search fails both directly and
after the source's de-leet replacements `@→a, 3→e, 0→o, 1→i, $→s, 7→t, 4→a`
(a table with no entry for `'!'` or `'5'`); an empty base or observed is
`NotFound` unconditionally, before any search. -/
theorem C7_notfound_iff (base pwd : String) (hb : base ≠ "") (hp : pwd ≠ "") :
    (infer_hashcat_rule base pwd = none ↔
      firstIdxOf (base.data.map Char.toLower) (pwd.data.map Char.toLower) = none ∧
      firstIdxOf (base.data.map Char.toLower)
        (applyReplaces (pwd.data.map Char.toLower)) = none) := by
  rw [infer_none_iff,
    inferParts_none_iff base.data pwd.data (data_ne_nil hb) (data_ne_nil hp),
    findBase_none_iff]

theorem C7_notfound_iff_witness : infer_hashcat_rule "zz" "ab" = none :=
  (C7_notfound_iff "zz" "ab" (by decide) (by decide)).mpr (by decide)

/-- C8 counterexample: representative selection minimizes the character
count of the rule text, not the op-code count.  Rules `"d"` and `"$a"`
are equivalent on the sample `["a"]` and each consist of one op; the
claimed tie-break (fewest op codes, then lexicographic) would keep `"$a"`
(lexicographically smaller), but the code keeps `"d"`, the shorter text. -/
theorem C8_counterexample :
    (optimize_rules ["d", "$a"] ["a"]).1 = ["d"] ∧
    countOps "$a".data = countOps "d".data ∧
    charsLt "$a".data "d".data = true ∧ "$a" ≠ "d" := by decide

/-- C8 (amended): from every signature class, `optimize_rules` keeps
exactly one representative: a member of the class such that no member of
the class is strictly smaller in the `(character count, lexicographic
text)` order. -/
theorem C8_representative_min (rules words : List String) (k rs : List String)
    (h : (k, rs) ∈ groupRules (fun r => sigOf r words) rules) :
    keepRule rs ∈ (optimize_rules rules words).1 ∧ keepRule rs ∈ rs ∧
      ∀ r ∈ rs, keyLtB r (keepRule rs) = false := by
  have hinv := groupRules_inv (fun r => sigOf r words) rules (k, rs) h
  have hne : rs ≠ [] := hinv.1
  refine ⟨?_, keepRule_mem rs hne, ?_⟩
  · rw [optimize_rules_fst]
    exact List.mem_map_of_mem (fun g => keepRule g.2) h
  · intro r hr
    rw [keepRule_eq_bestOf rs hne]
    exact bestOf_min rs r hr

theorem C8_representative_min_witness :
    keepRule ["d", "$a"] ∈ (optimize_rules ["d", "$a"] ["a"]).1 ∧
    keyLtB "$a" (keepRule ["d", "$a"]) = false :=
  ⟨(C8_representative_min ["d", "$a"] ["a"] ["aa"] ["d", "$a"] (by decide)).1,
   (C8_representative_min ["d", "$a"] ["a"] ["aa"] ["d", "$a"] (by decide)).2.2
     "$a" (by decide)⟩

/-- C9: the identity rule `":"` and the empty rule program both leave every
word unchanged; execution is pure and total — `apply_simple_rule` is a
plain function returning a word for every string rule and word, mirroring
the source, whose branches are all guarded and never raise. -/
theorem C9_identity (w : String) :
    apply_simple_rule w ":" = w ∧ apply_simple_rule w "" = w := by
  constructor <;> (cases w with | mk data => rfl)

/-- C10: on an empty rule list `optimize_rules` returns an empty optimized
list and a statistics record with `original_count`, `optimized_count` and
`removed_count` all 0 and `reduction_percent` 0: the reduction-percentage
computation is guarded by `if rules else 0` and never divides by zero. -/
theorem C10_empty_rules (words : List String) :
    optimize_rules [] words =
      ([], { original_count := 0, optimized_count := 0, removed_count := 0,
             redundant_groups := 0, reduction_percent := 0 }) := rfl

end Mangler
